import Mathlib

/- Verification of the response-parsing and error-localization pipeline of the
Cambridge CAE/CPE Writing Analyzer: the function parseAnalysisOutput of the
API route (shipped inside src/src/app/layout.tsx after the document marker),
together with the render-time category fallback of the TextHighlighter
component.  JavaScript strings are modelled as lists of characters (one list
element per UTF-16 code unit), JavaScript numbers as rationals extended with a
NaN element, and the JSON.parse builtin as an executable fuel-based JSON
reader.  All definitions follow the TypeScript source line by line. -/

abbrev Str := List Char

/- Character classes of the JavaScript regular-expression engine.
jsSpace is the class of the regex token for whitespace (also the set trimmed
by String.prototype.trim); jsDot is the class matched by the regex dot
(everything except the four line terminators). -/
def jsSpace (c : Char) : Bool :=
  c = ' ' || c = '\t' || c = '\n' || c = '\r' || c = '\x0b' || c = '\x0c' ||
  c = '\u00A0' || c = '\u1680' || ('\u2000' ≤ c && c ≤ '\u200A') ||
  c = '\u2028' || c = '\u2029' || c = '\u202F' || c = '\u205F' ||
  c = '\u3000' || c = '\uFEFF'

def jsDot (c : Char) : Bool :=
  !(c = '\n' || c = '\r' || c = '\u2028' || c = '\u2029')

/- the per-code-point canonicalization used by the case-insensitive regex
flag: it never changes a string's length -/
def toLowerStr (s : Str) : Str := s.map Char.toLower

/- String.prototype.toLowerCase (default, locale-insensitive Unicode case
conversion).  It is not length-preserving: U+0130 (capital I with dot above)
lowercases to the two code units i followed by U+0307 (combining dot above),
the one default lowercase mapping that changes length; every other mapping
sends one code point to one (modelled by Char.toLower). -/
def jsLowerChar (c : Char) : Str :=
  if c = '\u0130' then ['i', '\u0307'] else [Char.toLower c]

def jsToLower : Str → Str
  | [] => []
  | c :: s => jsLowerChar c ++ jsToLower s

def countWhile (p : Char → Bool) (s : Str) : Nat := (s.takeWhile p).length

/- String.prototype.trim -/
def jsTrim (s : Str) : Str :=
  ((s.dropWhile jsSpace).reverse.dropWhile jsSpace).reverse

/- feedback.replace of the newline-collapsing call: every maximal run of
newline characters becomes a single space. -/
def collapseNLAux : Bool → Str → Str
  | _, [] => []
  | prevNL, c :: rest =>
    if c = '\n' then
      if prevNL then collapseNLAux true rest else ' ' :: collapseNLAux true rest
    else c :: collapseNLAux false rest

def collapseNL (s : Str) : Str := collapseNLAux false s

def sliceStr (s : Str) (a b : Nat) : Str := (s.drop a).take (b - a)

def charAt (s : Str) (i : Nat) : Option Char := (s.drop i).head?

/- exact (case-sensitive) occurrence of pat at position p of s -/
def hasStrAt (s : Str) (p : Nat) (pat : Str) : Bool :=
  decide (sliceStr s p (p + pat.length) = pat)

/- case-insensitive occurrence of pat at position p of s -/
def ciPrefixAt (s : Str) (p : Nat) (pat : Str) : Bool :=
  decide (toLowerStr (sliceStr s p (p + pat.length)) = toLowerStr pat)

/- String.prototype.indexOf restricted to the first occurrence -/
def indexOfFrom (s pat : Str) : Nat → Nat → Option Nat
  | _, 0 => none
  | i, k+1 => if hasStrAt s i pat then some i else indexOfFrom s pat (i+1) k

def indexOfStr (s pat : Str) : Option Nat := indexOfFrom s pat 0 (s.length + 1)

/- JavaScript numbers as used by the pipeline: a rational or NaN.  NaN arises
from parseFloat applied to a non-numeric capture and is absorbing for the
arithmetic the pipeline performs. -/
inductive JVal where
  | nan : JVal
  | num (q : ℚ) : JVal
deriving DecidableEq

def jadd : JVal → JVal → JVal
  | JVal.num a, JVal.num b => JVal.num (a + b)
  | _, _ => JVal.nan

/- division; a zero divisor would be an infinity in JavaScript, but the
pipeline divides only by a positive criteria count, so that branch is
unreachable and mapped to nan here. -/
def jdiv : JVal → JVal → JVal
  | JVal.num a, JVal.num b => if b = 0 then JVal.nan else JVal.num (a / b)
  | _, _ => JVal.nan

/- Math.round: halves round toward positive infinity -/
def jround : JVal → JVal
  | JVal.nan => JVal.nan
  | JVal.num q => JVal.num ((⌊q + 1/2⌋ : ℤ) : ℚ)

/- the running overallScore accumulator: starts at 0, adds each pushed score -/
def jsumList (l : List JVal) : JVal := l.foldl jadd (JVal.num 0)

/- JSON values as produced by JSON.parse (numbers kept exact as rationals;
object keys are unique, later duplicates overwrite in place as in JS). -/
inductive JSON where
  | jnull : JSON
  | jbool (b : Bool) : JSON
  | jnum (q : ℚ) : JSON
  | jstr (s : Str) : JSON
  | jarr (elems : List JSON) : JSON
  | jobj (fields : List (Str × JSON)) : JSON

def jWs (c : Char) : Bool := c = ' ' || c = '\t' || c = '\n' || c = '\r'

def skipJWs (s : Str) : Str := s.dropWhile jWs

def hexVal (c : Char) : Option Nat :=
  if c.isDigit then some (c.toNat - 48)
  else if 'a' ≤ c ∧ c ≤ 'f' then some (c.toNat - 87)
  else if 'A' ≤ c ∧ c ≤ 'F' then some (c.toNat - 55)
  else none

def escChar (e : Char) : Option Char :=
  if e = '"' then some '"' else if e = '\\' then some '\\'
  else if e = '/' then some '/' else if e = 'b' then some '\x08'
  else if e = 'f' then some '\x0c' else if e = 'n' then some '\n'
  else if e = 'r' then some '\r' else if e = 't' then some '\t' else none

/- body of a JSON string literal, after the opening quote -/
def parseJStrAux : Nat → Str → Option (Str × Str)
  | 0, _ => none
  | _+1, [] => none
  | fuel+1, c :: rest =>
    if c = '"' then some ([], rest)
    else if c = '\\' then
      match rest with
      | [] => none
      | e :: rest2 =>
        if e = 'u' then
          match rest2 with
          | h1 :: h2 :: h3 :: h4 :: rest3 =>
            match hexVal h1, hexVal h2, hexVal h3, hexVal h4 with
            | some a, some b, some c3, some d =>
              (parseJStrAux fuel rest3).map
                (fun p => (Char.ofNat (((a*16+b)*16+c3)*16+d) :: p.1, p.2))
            | _, _, _, _ => none
          | _ => none
        else
          match escChar e with
          | some ch => (parseJStrAux fuel rest2).map (fun p => (ch :: p.1, p.2))
          | none => none
    else if c.toNat < 32 then none
    else (parseJStrAux fuel rest).map (fun p => (c :: p.1, p.2))

def digitsToNat (ds : Str) : Nat := ds.foldl (fun acc c => acc * 10 + (c.toNat - 48)) 0

def parseFracPart (s : Str) : Option (Str × Str) :=
  match s with
  | '.' :: r =>
    let ds := r.takeWhile Char.isDigit
    if ds = [] then none else some (ds, r.drop ds.length)
  | _ => some ([], s)

def parseExpDigits (r : Str) (neg : Bool) : Option (Int × Str) :=
  let ds := r.takeWhile Char.isDigit
  if ds = [] then none
  else some (if neg then -(digitsToNat ds : Int) else (digitsToNat ds : Int), r.drop ds.length)

def parseExpPart (s : Str) : Option (Int × Str) :=
  match s with
  | c :: r =>
    if c = 'e' ∨ c = 'E' then
      match r with
      | sc :: r2 =>
        if sc = '+' then parseExpDigits r2 false
        else if sc = '-' then parseExpDigits r2 true
        else parseExpDigits r false
      | [] => none
    else some (0, s)
  | [] => some (0, s)

def parseNumber (s : Str) : Option (ℚ × Str) :=
  let neg := match s with | '-' :: _ => true | _ => false
  let s1 := if neg then s.drop 1 else s
  let ints := s1.takeWhile Char.isDigit
  if ints = [] then none
  else if ints.length > 1 ∧ ints.headD '0' = '0' then none
  else
    match parseFracPart (s1.drop ints.length) with
    | none => none
    | some (fr, s3) =>
      match parseExpPart s3 with
      | none => none
      | some (ex, s4) =>
        let mant : ℚ := (digitsToNat (ints ++ fr) : ℚ)
        let q := mant * (10 : ℚ) ^ (ex - (fr.length : Int))
        some (if neg then -q else q, s4)

/- object fields: a duplicate key overwrites the value in place, as the
JavaScript object produced by JSON.parse does -/
def objInsert : List (Str × JSON) → Str → JSON → List (Str × JSON)
  | [], k, v => [(k, v)]
  | (k', v') :: fs, k, v =>
    if k' = k then (k', v) :: fs else (k', v') :: objInsert fs k v

mutual
def parseValue : Nat → Str → Option (JSON × Str)
  | 0, _ => none
  | fuel+1, s =>
    match s with
    | [] => none
    | c :: rest =>
      if c = '"' then
        (parseJStrAux (rest.length + 1) rest).map (fun p => (JSON.jstr p.1, p.2))
      else if c = '[' then
        match skipJWs rest with
        | ']' :: r2 => some (JSON.jarr [], r2)
        | s2 => parseArrLoop fuel s2 []
      else if c = '{' then
        match skipJWs rest with
        | '}' :: r2 => some (JSON.jobj [], r2)
        | s2 => parseObjLoop fuel s2 []
      else if hasStrAt s 0 (("true").toList) then some (JSON.jbool true, s.drop 4)
      else if hasStrAt s 0 (("false").toList) then some (JSON.jbool false, s.drop 5)
      else if hasStrAt s 0 (("null").toList) then some (JSON.jnull, s.drop 4)
      else if c = '-' ∨ c.isDigit then
        (parseNumber s).map (fun p => (JSON.jnum p.1, p.2))
      else none

def parseArrLoop : Nat → Str → List JSON → Option (JSON × Str)
  | 0, _, _ => none
  | fuel+1, s, acc =>
    match parseValue fuel s with
    | none => none
    | some (v, r) =>
      match skipJWs r with
      | ',' :: r2 => parseArrLoop fuel (skipJWs r2) (acc ++ [v])
      | ']' :: r2 => some (JSON.jarr (acc ++ [v]), r2)
      | _ => none

def parseObjLoop : Nat → Str → List (Str × JSON) → Option (JSON × Str)
  | 0, _, _ => none
  | fuel+1, s, acc =>
    match s with
    | '"' :: rest =>
      match parseJStrAux (rest.length + 1) rest with
      | none => none
      | some (key, r) =>
        match skipJWs r with
        | ':' :: r2 =>
          match parseValue fuel (skipJWs r2) with
          | none => none
          | some (v, r3) =>
            match skipJWs r3 with
            | ',' :: r4 => parseObjLoop fuel (skipJWs r4) (objInsert acc key v)
            | '}' :: r4 => some (JSON.jobj (objInsert acc key v), r4)
            | _ => none
        | _ => none
    | _ => none
end

/- JSON.parse: whole-input parse, surrounding whitespace allowed.  The fuel
2*length+2 strictly dominates the recursion depth, so it never runs out. -/
def jsonParse (s : Str) : Option JSON :=
  match parseValue (2 * s.length + 2) (skipJWs s) with
  | some (v, r) => if skipJWs r = [] then some v else none
  | none => none

/- One criterion record as pushed by parseAnalysisOutput: name (as matched in
the model output), score, feedback. -/
structure Criterion where
  name : Str
  score : JVal
  feedback : Str
deriving DecidableEq

/- The four category names, in the order of the regex alternation
(Content|Communicative Achievement|Organisation|Language). -/
def reqNames : List Str :=
  [("Content").toList, ("Communicative Achievement").toList,
   ("Organisation").toList, ("Language").toList]

def dval (c : Char) : ℚ := ((c.toNat - 48 : Nat) : ℚ)

/- After a category name at position i of length nameLen, the primary regex
requires whitespace*, an opening parenthesis, a digit, an optional dot-digit
fraction (tried greedily first, falling back without it), then the literal
closing sequence.  Returns the parsed score and the index just past the
colon. -/
def headerTail (s : Str) (i : Nat) (nameLen : Nat) : Option (JVal × Nat) :=
  let j := i + nameLen
  let k := j + countWhile jsSpace (s.drop j)
  match charAt s k with
  | some '(' =>
    match charAt s (k+1) with
    | some d =>
      if d.isDigit then
        match charAt s (k+2), charAt s (k+3) with
        | some '.', some d2 =>
          if d2.isDigit && hasStrAt s (k+4) (("/5):").toList) then
            some (JVal.num (dval d + dval d2 / 10), k + 8)
          else if hasStrAt s (k+2) (("/5):").toList) then
            some (JVal.num (dval d), k + 6)
          else none
        | _, _ =>
          if hasStrAt s (k+2) (("/5):").toList) then
            some (JVal.num (dval d), k + 6)
          else none
      else none
    | none => none
  | _ => none

/- Does the header pattern of the primary regex (which is also its
lookahead) match at position i?  On success: the name exactly as it occurs in
the text (then trimmed, as the code does), the score, and the index after the
colon. -/
def headerAt (s : Str) (i : Nat) : Option (Str × JVal × Nat) :=
  reqNames.findSome? (fun nm =>
    if ciPrefixAt s i nm then
      (headerTail s i nm.length).map
        (fun p => (jsTrim (sliceStr s i (i + nm.length)), p.1, p.2))
    else none)

/- All positions where the header pattern matches, in increasing order.  The
exec loop of the global primary regex visits exactly these positions: each
match extends to the next header position (its lookahead), where the
following exec resumes. -/
def headerScan (s : Str) : Nat → Nat → List (Nat × Str × JVal × Nat)
  | _, 0 => []
  | i, k+1 =>
    match headerAt s i with
    | some (nm, sc, ac) => (i, nm, sc, ac) :: headerScan s (i+1) k
    | none => headerScan s (i+1) k

/- Each primary match's feedback group runs from just after the colon to the
next header position (or the end of the text); the code then trims it and
collapses newline runs to single spaces. -/
def hitsToCriteria (s : Str) : List (Nat × Str × JVal × Nat) → List Criterion
  | [] => []
  | (_, nm, sc, ac) :: rest =>
    let endPos := match rest with | [] => s.length | (i2, _, _, _) :: _ => i2
    ⟨nm, sc, collapseNL (jsTrim (sliceStr s ac endPos))⟩ :: hitsToCriteria s rest

def primaryCriteria (s : Str) : List Criterion :=
  hitsToCriteria s (headerScan s 0 (s.length + 1))

/- The gap-fill pass applies, per line, the regex with a category name, a
lazy gap, a single digit before the slash-5, another lazy gap, a colon,
whitespace and at least one further character.  The helpers below implement
its exact backtracking order: candidate positions left to right, lazy stars
growing, the greedy whitespace star shrinking. -/

/- the final whitespace-star and one-or-more-dots part after a colon at c:
try the maximal whitespace run first, then backtrack one character at a
time; the captured feedback is the maximal dot run from where the star
stops. -/
def dotAtPos (line : Str) (q : Nat) : Bool :=
  match charAt line q with
  | some ch => jsDot ch
  | none => false

def gapWsBack (line : Str) (p : Nat) : Nat → Option Str
  | 0 => if dotAtPos line p then some ((line.drop p).takeWhile jsDot) else none
  | v+1 =>
    if dotAtPos line (p+v+1) then some ((line.drop (p+v+1)).takeWhile jsDot)
    else gapWsBack line p v

def gapAfterColon (line : Str) (c : Nat) : Option Str :=
  gapWsBack line (c+1) (countWhile jsSpace (line.drop (c+1)))

/- the lazy gap before the colon: the dot may consume any non-terminator
character, including a failed colon candidate -/
def gapColonSearch (line : Str) (nm : Str) (sc : JVal) : Nat → Nat → Option (Str × JVal × Str)
  | _, 0 => none
  | c, k+1 =>
    match charAt line c with
    | none => none
    | some ch =>
      if ch = ':' then
        match gapAfterColon line c with
        | some fb => some (nm, sc, fb)
        | none => gapColonSearch line nm sc (c+1) k
      else if jsDot ch then gapColonSearch line nm sc (c+1) k
      else none

/- the lazy gap before the digit, then the digit-slash-five anchor, then the
rest; on failure of the rest the lazy star consumes the digit and goes on -/
def gapDigitSearch (line : Str) (nm : Str) : Nat → Nat → Option (Str × JVal × Str)
  | _, 0 => none
  | d, k+1 =>
    match charAt line d with
    | none => none
    | some ch =>
      if ch.isDigit && decide (charAt line (d+1) = some '/') &&
          decide (charAt line (d+2) = some '5') then
        match gapColonSearch line nm (JVal.num (dval ch)) (d+3) (line.length + 1) with
        | some r => some r
        | none => if jsDot ch then gapDigitSearch line nm (d+1) k else none
      else if jsDot ch then gapDigitSearch line nm (d+1) k
      else none

def nameAtPos (line : Str) (s : Nat) : Option Str :=
  reqNames.findSome? (fun nm =>
    if ciPrefixAt line s nm then some (sliceStr line s (s + nm.length)) else none)

def gapStartSearch (line : Str) : Nat → Nat → Option (Str × JVal × Str)
  | _, 0 => none
  | s, k+1 =>
    match nameAtPos line s with
    | some nm =>
      match gapDigitSearch line nm (s + nm.length) (line.length + 1) with
      | some r => some r
      | none => gapStartSearch line (s+1) k
    | none => gapStartSearch line (s+1) k

def gapLine (line : Str) : Option (Str × JVal × Str) :=
  gapStartSearch line 0 (line.length + 1)

/- the per-line loop: push a criterion for a line match whose (untrimmed)
name is not yet in the found set, then add the trimmed name to the set -/
def gapPass : List Str → List Criterion → List Str → List Criterion
  | [], cs, _ => cs
  | line :: rest, cs, found =>
    match gapLine line with
    | some (nm, sc, fb) =>
      if nm ∈ found then gapPass rest cs found
      else gapPass rest (cs ++ [⟨jsTrim nm, sc, jsTrim fb⟩]) (found ++ [jsTrim nm])
    | none => gapPass rest cs found

/- Default-fill scan.  The pattern is built in a template literal, where the
backslash-d escape cooks to the plain letter d: the compiled regex therefore
looks for the lowercased category name followed (case-insensitively,
anything in between) by the literal text d/5, and its capture is always the
letter d, whose parseFloat is NaN.  If the pattern does not match, the score
defaults to 3. -/
def defaultScore (s : Str) (nm : Str) : JVal :=
  if (List.range (s.length + 1)).any (fun i =>
      ciPrefixAt s i (jsToLower nm) &&
      (List.range (s.length + 1)).any (fun j =>
        decide (i + (jsToLower nm).length ≤ j) && ciPrefixAt s j (("d/5").toList)))
  then JVal.nan else JVal.num 3

def defaultFeedback (nm : Str) : Str :=
  ("Assessment provided. Please refer to the full analysis above for detailed feedback on ").toList
    ++ jsToLower nm ++ (".").toList

def mkDefault (s : Str) (nm : Str) : Criterion :=
  ⟨nm, defaultScore s nm, defaultFeedback nm⟩

/- the loop over requiredCriteria: foundNames is computed once, then every
missing canonical name is pushed -/
def defaultFill (s : Str) (cs : List Criterion) : List Criterion :=
  cs ++ (reqNames.filter
          (fun nm => !(decide (nm ∈ cs.map Criterion.name)))).map (mkDefault s)

/- criteria.sort comparator key: (sortOrder[name] || 999).  Content has
sortOrder 0, which is falsy in JavaScript, so the or-expression yields 999
for Content exactly as for unknown names. -/
def sortKey (nm : Str) : Nat :=
  if nm = ("Communicative Achievement").toList then 1
  else if nm = ("Organisation").toList then 2
  else if nm = ("Language").toList then 3
  else 999

/- stable insertion sort ascending by sortKey, matching the stable
Array.prototype.sort -/
def insertK (x : Criterion) : List Criterion → List Criterion
  | [] => [x]
  | y :: ys => if sortKey y.name < sortKey x.name then y :: insertK x ys
               else x :: y :: ys

def sortCrit : List Criterion → List Criterion
  | [] => []
  | x :: xs => insertK x (sortCrit xs)

/- the primary pass followed, when it found fewer than 4 criteria, by the
line-by-line gap-fill pass -/
def afterGapPass (analysisText : Str) : List Criterion :=
  if (primaryCriteria analysisText).length < 4 then
    gapPass (analysisText.splitOn '\n') (primaryCriteria analysisText)
      ((primaryCriteria analysisText).map Criterion.name)
  else primaryCriteria analysisText

def extractCriteria (analysisText : Str) : List Criterion :=
  defaultFill analysisText (afterGapPass analysisText)

/- One entry of the result's errors array: the decoded record (after the
register-to-style rewrite) together with the optional located span that the
code attaches as start/end fields. -/
structure ErrAnn where
  raw : JSON
  span : Option (Nat × Nat)

def lookupField : List (Str × JSON) → Str → Option JSON
  | [], _ => none
  | (k', v) :: fs, k => if k' = k then some v else lookupField fs k

/- property access e.k: undefined (none) on every non-object -/
def getField : JSON → Str → Option JSON
  | JSON.jobj fs, k => lookupField fs k
  | _, _ => none

/- the object spread that replaces one field -/
def setField : JSON → Str → JSON → JSON
  | JSON.jobj fs, k, v => JSON.jobj (objInsert fs k v)
  | e, _, _ => e

/- JavaScript truthiness of a JSON value -/
def truthy : JSON → Bool
  | JSON.jnull => false
  | JSON.jbool b => b
  | JSON.jnum q => decide (q ≠ 0)
  | JSON.jstr s => decide (s ≠ [])
  | JSON.jarr _ => true
  | JSON.jobj _ => true

/- e and e.type strict-equals the string register -/
def typeIsRegister (e : JSON) : Bool :=
  match getField e (("type").toList) with
  | some (JSON.jstr s) => decide (s = ("register").toList)
  | _ => false

def regCond (e : JSON) : Bool := truthy e && typeIsRegister e

/- the register-to-style rewrite applied to every decoded record -/
def registerFix (e : JSON) : JSON :=
  if regCond e then setField e (("type").toList) (JSON.jstr (("style").toList)) else e

/- the location loop of the Error Locator, over the lowercased writing -/
def matchAt (nw ne : Str) (i : Nat) : Bool :=
  decide (sliceStr nw i (i + ne.length) = ne)

def rangeFree (used : Nat → Bool) (i len : Nat) : Bool :=
  (List.range len).all (fun k => !used (i + k))

def markFun (used : Nat → Bool) (i len : Nat) : Nat → Bool :=
  fun j => if i ≤ j ∧ j < i + len then true else used j

/- the for loop: first index from the left that matches and is entirely
unused; the loop bound is length difference inclusive -/
def findFrom (p : Nat → Bool) : Nat → Nat → Option Nat
  | _, 0 => none
  | i, k+1 => if p i then some i else findFrom p (i+1) k

def findMatch (nw ne : Str) (used : Nat → Bool) : Option Nat :=
  findFrom (fun i => matchAt nw ne i && rangeFree used i ne.length) 0
    (nw.length + 1 - ne.length)

/- One iteration of the locating map.  A record without truthy text passes
through untouched.  A record with a truthy string text is searched for in
the lowercased writing; on success the span uses the original text length
for its end and the matched range is marked used.  A record with truthy
non-string text would make toLowerCase throw in JavaScript; locateAll
handles that case before this function can reach it, so the branch here
just passes the record through. -/
def locateStep (writing : Str) (used : Nat → Bool) (e : JSON) : ErrAnn × (Nat → Bool) :=
  match getField e (("text").toList) with
  | some (JSON.jstr (c :: t)) =>
    match findMatch (jsToLower writing) (jsToLower (c :: t)) used with
    | some i =>
      (⟨e, some (i, i + (c :: t).length)⟩, markFun used i (jsToLower (c :: t)).length)
    | none => (⟨e, none⟩, used)
  | _ => (⟨e, none⟩, used)

def locatePass (writing : Str) : (Nat → Bool) → List JSON → List ErrAnn
  | _, [] => []
  | used, e :: es =>
    let r := locateStep writing used e
    r.1 :: locatePass writing r.2 es

/- a record on which the locating map would throw: truthy non-string text
(toLowerCase is not a function).  The exception is caught by the enclosing
try block, so the errors variable keeps its previous value: the
register-rewritten list, with no spans attached. -/
def hasThrowingText (e : JSON) : Bool :=
  match getField e (("text").toList) with
  | some (JSON.jstr _) => false
  | some v => truthy v
  | none => false

def locateAll (writing : Str) (es : List JSON) : List ErrAnn :=
  if es.any hasThrowingText then es.map (fun e => ⟨e, none⟩)
  else locatePass writing (fun _ => false) es

/- the global bracket regex: each match runs from an opening bracket to the
first closing bracket after it; scanning resumes past that match -/
def extractFragsAux : Nat → Str → List Str
  | 0, _ => []
  | fuel+1, s =>
    match s.findIdx? (fun c => c = '[') with
    | none => []
    | some i =>
      let rest := s.drop (i+1)
      match rest.findIdx? (fun c => c = ']') with
      | none => []
      | some j => ('[' :: rest.take (j+1)) :: extractFragsAux fuel (rest.drop (j+1))

def extractFragments (s : Str) : List Str := extractFragsAux s.length s

/- Array.prototype.flat of depth one -/
def jsFlatOne : JSON → List JSON
  | JSON.jarr xs => xs
  | v => [v]

/- decode every fragment independently (a failed JSON.parse becomes null and
is filtered out), then flatten one level preserving order -/
def decodeErrors (errsText : Str) : List JSON :=
  (((extractFragments errsText).filterMap jsonParse).map jsFlatOne).foldr (· ++ ·) []

/- the aggregate result -/
structure AnalysisResult where
  overallScore : JVal
  criteria : List Criterion
  errors : List ErrAnn

def errMarker : Str := ("ERRORS:").toList

def analysisSegment (output : Str) : Str :=
  match indexOfStr output errMarker with
  | some i => output.take i
  | none => output

def errorsSegment (output : Str) : Str :=
  match indexOfStr output errMarker with
  | some i => output.drop i
  | none => []

/- parseAnalysisOutput(output, writing): split at the ERRORS marker, decode
and locate the errors, run the three criterion passes, compute the rounded
mean of all pushed scores, and sort the criteria with the comparator key. -/
def parseAnalysisOutput (output writing : Str) : AnalysisResult :=
  { overallScore :=
      if (extractCriteria (analysisSegment output)).length > 0 then
        jround (jdiv (jsumList ((extractCriteria (analysisSegment output)).map Criterion.score))
          (JVal.num ((extractCriteria (analysisSegment output)).length : ℚ)))
      else JVal.num 3
    criteria := sortCrit (extractCriteria (analysisSegment output))
    errors :=
      if errorsSegment output = [] then []
      else locateAll writing ((decodeErrors (errorsSegment output)).map registerFix) }

/- the span of the k-th entry of the result's errors array -/
def spanAt (r : AnalysisResult) (k : Nat) : Option (Nat × Nat) :=
  (r.errors.get? k).bind ErrAnn.span

/- TextHighlighter: a category outside the four recognized values defaults
to style at render time -/
def renderTypeStr (t : Str) : Str :=
  if t = ("grammar").toList ∨ t = ("spelling").toList ∨
     t = ("vocabulary").toList ∨ t = ("style").toList then t
  else ("style").toList

/- concrete model outputs used in counterexamples and witnesses -/

def wellOut : Str :=
  ("Content (4/5): a\nCommunicative Achievement (5/5): b\nOrganisation (3/5): c\nLanguage (4/5): d").toList

def dupOut : Str := ("Content (4/5): good\nContent (3/5): bad").toList

/- lemmas: the stable sort is a permutation -/

theorem insertK_perm (x : Criterion) : ∀ l : List Criterion, (insertK x l).Perm (x :: l) := by
  intro l
  induction l with
  | nil => exact List.Perm.refl _
  | cons y ys ih =>
    unfold insertK
    by_cases h : sortKey y.name < sortKey x.name
    · rw [if_pos h]
      exact (ih.cons y).trans (List.Perm.swap x y ys)
    · rw [if_neg h]

theorem sortCrit_perm : ∀ l : List Criterion, (sortCrit l).Perm l := by
  intro l
  induction l with
  | nil => exact List.Perm.refl _
  | cons x xs ih => exact (insertK_perm x (sortCrit xs)).trans (ih.cons x)

/- the default-fill loop leaves every canonical category name present -/

theorem defaultFill_covers (s : Str) (cs : List Criterion) (nm : Str) (h : nm ∈ reqNames) :
    ∃ c ∈ defaultFill s cs, c.name = nm := by
  by_cases hmem : nm ∈ cs.map Criterion.name
  · obtain ⟨c, hc, hname⟩ := List.mem_map.1 hmem
    exact ⟨c, List.mem_append_left _ hc, hname⟩
  · refine ⟨mkDefault s nm, List.mem_append_right _ ?_, rfl⟩
    exact List.mem_map_of_mem _ (List.mem_filter.2 ⟨h, by simp [hmem]⟩)

/-- C1 (amended): for every model output and submission the pipeline returns a
structurally complete result without failing: its criteria list contains a
record named after each of the four categories (so at least four records);
exactness of the count fails only when a category header is matched more than
once, see the counterexample. -/
theorem parse_criteria_cover_categories (output writing : Str) :
    ((∃ c ∈ (parseAnalysisOutput output writing).criteria, c.name = ("Content").toList) ∧
     (∃ c ∈ (parseAnalysisOutput output writing).criteria,
        c.name = ("Communicative Achievement").toList) ∧
     (∃ c ∈ (parseAnalysisOutput output writing).criteria, c.name = ("Organisation").toList) ∧
     (∃ c ∈ (parseAnalysisOutput output writing).criteria, c.name = ("Language").toList)) ∧
    4 ≤ (parseAnalysisOutput output writing).criteria.length := by
  have hcrit : (parseAnalysisOutput output writing).criteria
      = sortCrit (extractCriteria (analysisSegment output)) := rfl
  have hperm := sortCrit_perm (extractCriteria (analysisSegment output))
  have hcov : ∀ nm ∈ reqNames, ∃ c ∈ (parseAnalysisOutput output writing).criteria, c.name = nm := by
    intro nm hnm
    obtain ⟨c, hc, hn⟩ := defaultFill_covers (analysisSegment output) (afterGapPass (analysisSegment output)) nm hnm
    exact ⟨c, hcrit ▸ (hperm.mem_iff.2 hc), hn⟩
  refine ⟨⟨?_, ?_, ?_, ?_⟩, ?_⟩
  · exact hcov _ (by simp [reqNames])
  · exact hcov _ (by simp [reqNames])
  · exact hcov _ (by simp [reqNames])
  · exact hcov _ (by simp [reqNames])
  · have hsub : reqNames ⊆ (parseAnalysisOutput output writing).criteria.map Criterion.name := by
      intro nm hnm
      obtain ⟨c, hc, hn⟩ := hcov nm hnm
      exact hn ▸ List.mem_map_of_mem _ hc
    have hnodup : reqNames.Nodup := by decide
    have hle := (List.subperm_of_subset hnodup hsub).length_le
    simpa [List.length_map, reqNames] using hle

/-- C1 counterexample: on a model output whose analysis segment carries the
Content header twice, the result's criteria list has five records, not four. -/
theorem parse_criteria_five_records :
    (parseAnalysisOutput dupOut []).criteria.length = 5 ∧
    ¬ (parseAnalysisOutput dupOut []).criteria.length = 4 := by
  constructor
  · rfl
  · intro h
    have h5 : (parseAnalysisOutput dupOut []).criteria.length = 5 := rfl
    omega

/- the accumulated overallScore is invariant under permutations of the
criteria list -/

theorem jadd_right_comm (b x y : JVal) : jadd (jadd b x) y = jadd (jadd b y) x := by
  cases b <;> cases x <;> cases y <;> simp only [jadd]
  ring_nf

theorem foldl_jadd_perm {l1 l2 : List JVal} (h : l1.Perm l2) :
    ∀ b, l1.foldl jadd b = l2.foldl jadd b := by
  induction h with
  | nil => intro b; rfl
  | cons x _ ih => intro b; simpa [List.foldl] using ih _
  | swap x y l => intro b; simp [List.foldl, jadd_right_comm]
  | trans _ _ ih1 ih2 => intro b; rw [ih1 b, ih2 b]

theorem jsumList_perm {l1 l2 : List JVal} (h : l1.Perm l2) : jsumList l1 = jsumList l2 :=
  foldl_jadd_perm h _

/- C2, the claim exactly as stated: the overall score is an integer equal to
the rounded mean of the four criterion scores, or 3 when no criteria were
recovered. -/
def claimTwoProp (output writing : Str) : Prop :=
  (∃ s1 s2 s3 s4 : JVal,
     (parseAnalysisOutput output writing).criteria.map Criterion.score = [s1, s2, s3, s4] ∧
     (parseAnalysisOutput output writing).overallScore
       = jround (jdiv (jsumList [s1, s2, s3, s4]) (JVal.num 4)) ∧
     ∃ n : ℤ, (parseAnalysisOutput output writing).overallScore = JVal.num n) ∨
  ((parseAnalysisOutput output writing).criteria = [] ∧
   (parseAnalysisOutput output writing).overallScore = JVal.num 3)

/-- C2 counterexample: on the duplicated-Content output the result has five
criteria, so its overall score is the rounded mean of five scores and the
claim's description (mean of the four criterion scores, or 3 with none
recovered) does not hold. -/
theorem overall_score_claim_fails : ¬ claimTwoProp dupOut [] := by
  intro h
  have h5 : (parseAnalysisOutput dupOut []).criteria.length = 5 := rfl
  rcases h with ⟨s1, s2, s3, s4, hmap, _⟩ | ⟨hnil, _⟩
  · have := congrArg List.length hmap
    simp only [List.length_map, h5, List.length_cons, List.length_nil] at this
    omega
  · rw [hnil] at h5
    simp at h5

/-- C2 (amended): whenever the result carries exactly four criteria with
scores s1..s4, the overall score is Math.round of their mean (half-up
rounding; this is NaN, hence not an integer, exactly when one of the scores
is NaN); results with a repeated header carry more than four criteria and
average all of them. -/
theorem overall_rounded_mean_of_four (output writing : Str) (s1 s2 s3 s4 : JVal)
    (h : (parseAnalysisOutput output writing).criteria.map Criterion.score = [s1, s2, s3, s4]) :
    (parseAnalysisOutput output writing).overallScore
      = jround (jdiv (jsumList [s1, s2, s3, s4]) (JVal.num 4)) := by
  have hperm := sortCrit_perm (extractCriteria (analysisSegment output))
  have hmapperm : ((sortCrit (extractCriteria (analysisSegment output))).map Criterion.score).Perm
      ((extractCriteria (analysisSegment output)).map Criterion.score) := hperm.map _
  have hcrit : (parseAnalysisOutput output writing).criteria
      = sortCrit (extractCriteria (analysisSegment output)) := rfl
  rw [hcrit] at h
  have hsum : jsumList ((extractCriteria (analysisSegment output)).map Criterion.score)
      = jsumList [s1, s2, s3, s4] := by
    rw [← h]
    exact (jsumList_perm hmapperm).symm
  have hlen : (extractCriteria (analysisSegment output)).length = 4 := by
    have hl := congrArg List.length h
    simp only [List.length_map] at hl
    rw [hperm.length_eq] at hl
    simpa using hl
  simp only [parseAnalysisOutput]
  rw [hlen, hsum]
  norm_num

/-- witness for the C2 theorem at the well-formed four-header output: the
criteria scores there are 5, 3, 4 and 4 (in the result's order) and the
overall score equals the rounded mean. -/
theorem overall_rounded_mean_witness :
    (parseAnalysisOutput wellOut []).overallScore
      = jround (jdiv (jsumList [JVal.num 5, JVal.num 3, JVal.num 4, JVal.num 4]) (JVal.num 4)) :=
  overall_rounded_mean_of_four wellOut [] _ _ _ _ (by decide)

set_option maxRecDepth 8000 in
/-- C3: the comparator key (sortOrder[name] || 999) maps Content's index 0,
which is falsy, to 999, so even on a fully well-formed output the criteria
come back ordered Communicative Achievement, Organisation, Language,
Content - not in the canonical order with Content first. -/
theorem sort_puts_content_last :
    (parseAnalysisOutput wellOut []).criteria.map Criterion.name =
      [("Communicative Achievement").toList, ("Organisation").toList,
       ("Language").toList, ("Content").toList] := by
  decide

def c8out : Str :=
  ("Content (4/5): ok\nCommunicative Achievement (4/5): ok\nOrganisation (4/5): ok\nThe Language part deserves 4/5 overall").toList

def c8nan : Str := ("content d/5").toList

set_option maxRecDepth 8000 in
/-- C8: the last-resort scan does not recover a score from a category name
followed by an N/5 token, because the template literal cooked the digit
escape into the plain letter d: with Language only mentioned as, say, part
deserves 4/5, the Language criterion gets the default score 3; and where the
literal text d/5 does occur after the name, the captured letter parses to
NaN, which also poisons the overall score. -/
theorem default_fill_requires_literal_d :
    ((parseAnalysisOutput c8out []).criteria.get? 2).map (fun c => (c.name, c.score))
        = some (("Language").toList, JVal.num 3) ∧
    ((parseAnalysisOutput c8nan []).criteria.get? 3).map (fun c => (c.name, c.score))
        = some (("Content").toList, JVal.nan) ∧
    (parseAnalysisOutput c8nan []).overallScore = JVal.nan := by
  refine ⟨by decide, by decide, by decide⟩

/- basic facts about the location machinery -/

theorem toLowerStr_length (s : Str) : (toLowerStr s).length = s.length := by
  simp [toLowerStr]

theorem jsLowerChar_length_pos (c : Char) : 0 < (jsLowerChar c).length := by
  unfold jsLowerChar
  split <;> simp

/- lowercasing never shrinks a string (it can grow it, via U+0130) -/
theorem jsToLower_length_ge : ∀ s : Str, s.length ≤ (jsToLower s).length := by
  intro s
  induction s with
  | nil => simp [jsToLower]
  | cons c s ih =>
    have := jsLowerChar_length_pos c
    simp only [jsToLower, List.length_append, List.length_cons]
    omega

theorem jsToLower_ne_nil {s : Str} (h : s ≠ []) : jsToLower s ≠ [] := by
  cases s with
  | nil => exact absurd rfl h
  | cons c s =>
    intro hcon
    have hl := congrArg List.length hcon
    have := jsLowerChar_length_pos c
    simp only [jsToLower, List.length_append, List.length_nil] at hl
    omega

/- when lowercasing preserves a string's length, the string has no U+0130
and lowercasing it is the plain per-character map -/
theorem no_exp_of_jsToLower_length_eq : ∀ s : Str, (jsToLower s).length = s.length →
    ∀ c ∈ s, c ≠ '\u0130' := by
  intro s
  induction s with
  | nil => intro _ c hc; simp at hc
  | cons c s ih =>
    intro h c' hc'
    simp only [jsToLower, List.length_append, List.length_cons] at h
    have hge := jsToLower_length_ge s
    have hpos := jsLowerChar_length_pos c
    have h1 : (jsLowerChar c).length = 1 ∧ (jsToLower s).length = s.length := by omega
    rcases List.mem_cons.1 hc' with rfl | hmem
    · intro hcon
      rw [hcon] at h1
      have h2 : (jsLowerChar '\u0130').length = 2 := rfl
      omega
    · exact ih h1.2 c' hmem

theorem jsToLower_eq_toLowerStr {s : Str} (h : ∀ c ∈ s, c ≠ '\u0130') :
    jsToLower s = toLowerStr s := by
  induction s with
  | nil => rfl
  | cons c s ih =>
    have hc : c ≠ '\u0130' := h c (List.mem_cons_self _ _)
    have hlc : jsLowerChar c = [Char.toLower c] := by
      unfold jsLowerChar
      rw [if_neg hc]
    show jsLowerChar c ++ jsToLower s = toLowerStr (c :: s)
    rw [hlc, ih (fun c' hc' => h c' (List.mem_cons_of_mem _ hc'))]
    rfl

theorem sliceStr_toLowerStr (s : Str) (a b : Nat) :
    sliceStr (toLowerStr s) a b = toLowerStr (sliceStr s a b) := by
  simp [sliceStr, toLowerStr, List.map_drop, List.map_take]

theorem locatePass_cons (w : Str) (u : Nat → Bool) (e : JSON) (es : List JSON) :
    locatePass w u (e :: es) =
      (locateStep w u e).1 :: locatePass w (locateStep w u e).2 es := rfl

theorem locateStep_raw (w : Str) (u : Nat → Bool) (e : JSON) :
    (locateStep w u e).1.raw = e := by
  unfold locateStep
  split
  · split <;> rfl
  · rfl

theorem locatePass_map_raw (w : Str) : ∀ (u : Nat → Bool) (es : List JSON),
    (locatePass w u es).map ErrAnn.raw = es := by
  intro u es
  induction es generalizing u with
  | nil => rfl
  | cons e es ih =>
    rw [locatePass_cons, List.map_cons, locateStep_raw, ih]

theorem map_raw_mk : ∀ es : List JSON,
    (es.map (fun e => (⟨e, none⟩ : ErrAnn))).map ErrAnn.raw = es := by
  intro es
  induction es with
  | nil => rfl
  | cons e es ih => simpa using ih

theorem locateAll_map_raw (w : Str) (es : List JSON) :
    (locateAll w es).map ErrAnn.raw = es := by
  unfold locateAll
  split
  · exact map_raw_mk es
  · exact locatePass_map_raw w _ es

theorem findFrom_some {p : Nat → Bool} :
    ∀ k i j, findFrom p i k = some j → p j = true ∧ i ≤ j ∧ j < i + k := by
  intro k
  induction k with
  | zero => intro i j h; simp [findFrom] at h
  | succ k ih =>
    intro i j h
    unfold findFrom at h
    by_cases hp : p i
    · rw [if_pos hp] at h
      cases h
      exact ⟨hp, Nat.le_refl _, by omega⟩
    · rw [if_neg hp] at h
      obtain ⟨h1, h2, h3⟩ := ih (i+1) j h
      exact ⟨h1, by omega, by omega⟩

theorem findFrom_leftmost {p : Nat → Bool} :
    ∀ k i j, findFrom p i k = some j → ∀ m, i ≤ m → m < j → p m = false := by
  intro k
  induction k with
  | zero => intro i j h; simp [findFrom] at h
  | succ k ih =>
    intro i j h m h1 h2
    unfold findFrom at h
    by_cases hp : p i
    · rw [if_pos hp] at h
      cases h
      omega
    · rw [if_neg hp] at h
      rcases Nat.eq_or_lt_of_le h1 with rfl | hlt
      · exact Bool.of_not_eq_true hp
      · exact ih (i+1) j h m hlt h2

theorem findFrom_none_of_false {p : Nat → Bool} (hall : ∀ j, p j = false) :
    ∀ k i, findFrom p i k = none := by
  intro k
  induction k with
  | zero => intro i; rfl
  | succ k ih => intro i; unfold findFrom; rw [hall i]; simpa using ih (i+1)

theorem findMatch_some {nw ne : Str} {u : Nat → Bool} {i : Nat}
    (h : findMatch nw ne u = some i) :
    matchAt nw ne i = true ∧ rangeFree u i ne.length = true ∧ i + ne.length ≤ nw.length := by
  obtain ⟨hp, _, hlt⟩ := findFrom_some _ _ _ h
  rw [Bool.and_eq_true] at hp
  exact ⟨hp.1, hp.2, by omega⟩

theorem matchAt_spec {nw ne : Str} {i : Nat} (h : matchAt nw ne i = true) :
    sliceStr nw i (i + ne.length) = ne := by
  simpa [matchAt] using h

theorem rangeFree_spec {u : Nat → Bool} {i len : Nat} (h : rangeFree u i len = true) :
    ∀ j, i ≤ j → j < i + len → u j = false := by
  intro j h1 h2
  have hx := (List.all_eq_true.1 h) (j - i) (List.mem_range.2 (by omega))
  rw [Nat.add_sub_cancel' h1] at hx
  simpa using hx

theorem markFun_in {u : Nat → Bool} {i len j : Nat} (h1 : i ≤ j) (h2 : j < i + len) :
    markFun u i len j = true := by
  simp [markFun, h1, h2]

theorem markFun_mono {u : Nat → Bool} {i len j : Nat} (h : u j = true) :
    markFun u i len j = true := by
  unfold markFun
  split <;> simp [h]

/- a single locating step either locates a nonempty text at a found index and
marks the range, or passes the record through unchanged -/
theorem locateStep_characterize (w : Str) (u : Nat → Bool) (e : JSON) :
    (∃ t i, t ≠ [] ∧ getField e (("text").toList) = some (JSON.jstr t) ∧
        findMatch (jsToLower w) (jsToLower t) u = some i ∧
        locateStep w u e = (⟨e, some (i, i + t.length)⟩,
          markFun u i (jsToLower t).length)) ∨
    locateStep w u e = (⟨e, none⟩, u) := by
  unfold locateStep
  split
  next c t heq =>
    split
    next i hf => exact Or.inl ⟨c :: t, i, by simp, heq, hf, rfl⟩
    next hf => exact Or.inr rfl
  next => exact Or.inr rfl

theorem locateStep_span_cases {w : Str} {u : Nat → Bool} {e : JSON} {st en : Nat}
    (hspan : (locateStep w u e).1.span = some (st, en)) :
    ∃ t : Str, t ≠ [] ∧ getField e (("text").toList) = some (JSON.jstr t) ∧
      findMatch (jsToLower w) (jsToLower t) u = some st ∧ en = st + t.length ∧
      (locateStep w u e).2 = markFun u st (jsToLower t).length := by
  rcases locateStep_characterize w u e with ⟨t, i, hne, hg, hf, heq⟩ | heq
  · rw [heq] at hspan
    simp only [Option.some.injEq, Prod.mk.injEq] at hspan
    obtain ⟨rfl, hen⟩ := hspan
    exact ⟨t, hne, hg, hf, hen.symm, by rw [heq]⟩
  · rw [heq] at hspan
    simp at hspan

theorem locateStep_mask_mono (w : Str) (u : Nat → Bool) (e : JSON) (j : Nat)
    (h : u j = true) : (locateStep w u e).2 j = true := by
  rcases locateStep_characterize w u e with ⟨t, i, _, _, _, heq⟩ | heq
  · rw [heq]; exact markFun_mono h
  · rw [heq]; exact h

/- the characters under a fresh span were unused before the step and are
used after it -/
theorem locateStep_span_marks {w : Str} {u : Nat → Bool} {e : JSON} {st en : Nat}
    (hspan : (locateStep w u e).1.span = some (st, en)) :
    st < en ∧ ∀ j, st ≤ j → j < en → u j = false ∧ (locateStep w u e).2 j = true := by
  obtain ⟨t, hne, hg, hf, hen, hmask⟩ := locateStep_span_cases hspan
  obtain ⟨hm, hfree, hbound⟩ := findMatch_some hf
  have htl : t.length ≤ (jsToLower t).length := jsToLower_length_ge t
  have htpos : 0 < t.length := by
    cases t with
    | nil => exact absurd rfl hne
    | cons c t => simp
  refine ⟨by omega, ?_⟩
  intro j h1 h2
  constructor
  · exact rangeFree_spec hfree j h1 (by omega)
  · rw [hmask]; exact markFun_in h1 (by omega)

/- every span produced further down the pass is over characters unused in
the current mask -/
theorem locatePass_spans_unused (w : Str) :
    ∀ (es : List JSON) (u : Nat → Bool) (a : ErrAnn), a ∈ locatePass w u es →
      ∀ st en, a.span = some (st, en) → ∀ j, st ≤ j → j < en → u j = false := by
  intro es
  induction es with
  | nil => intro u a ha; simp [locatePass] at ha
  | cons e es ih =>
    intro u a ha st en hspan j h1 h2
    rw [locatePass_cons] at ha
    rcases List.mem_cons.1 ha with rfl | hmem
    · exact ((locateStep_span_marks hspan).2 j h1 h2).1
    · have hu' := ih _ a hmem st en hspan j h1 h2
      by_contra hu
      have hut : u j = true := by
        cases hval : u j
        · exact absurd hval hu
        · rfl
      have := locateStep_mask_mono w u e j hut
      rw [hu'] at this
      exact absurd this (by simp)

/- every located span in a pass is nonempty -/
theorem locatePass_span_pos (w : Str) :
    ∀ (es : List JSON) (u : Nat → Bool) (a : ErrAnn), a ∈ locatePass w u es →
      ∀ st en, a.span = some (st, en) → st < en := by
  intro es
  induction es with
  | nil => intro u a ha; simp [locatePass] at ha
  | cons e es ih =>
    intro u a ha st en hspan
    rw [locatePass_cons] at ha
    rcases List.mem_cons.1 ha with rfl | hmem
    · exact (locateStep_span_marks hspan).1
    · exact ih _ a hmem st en hspan

/- any two located spans in one pass are disjoint -/
theorem locatePass_disjoint (w : Str) :
    ∀ (es : List JSON) (u : Nat → Bool) (i j : Nat) (a b : ErrAnn), i < j →
      (locatePass w u es).get? i = some a → (locatePass w u es).get? j = some b →
      ∀ st en st2 en2, a.span = some (st, en) → b.span = some (st2, en2) →
        en ≤ st2 ∨ en2 ≤ st := by
  intro es
  induction es with
  | nil => intro u i j a b hij ha; simp [locatePass] at ha
  | cons e es ih =>
    intro u i j a b hij ha hb st en st2 en2 hsa hsb
    rw [locatePass_cons] at ha hb
    cases i with
    | zero =>
      cases j with
      | zero => omega
      | succ j' =>
        have ha' : a = (locateStep w u e).1 := by
          have h0 : some (locateStep w u e).1 = some a := ha
          cases h0; rfl
        subst ha'
        have hb' : b ∈ locatePass w (locateStep w u e).2 es := List.get?_mem hb
        obtain ⟨hlt, hmarks⟩ := locateStep_span_marks hsa
        have hbun := locatePass_spans_unused w es _ b hb' st2 en2 hsb
        have hbpos := locatePass_span_pos w es _ b hb' st2 en2 hsb
        by_contra hcon
        push_neg at hcon
        obtain ⟨hc1, hc2⟩ := hcon
        rcases Nat.le_total st st2 with hle | hle
        · have h1 := (hmarks st2 hle hc1).2
          have h2 := hbun st2 (Nat.le_refl _) hbpos
          rw [h2] at h1
          exact absurd h1 (by simp)
        · have h1 := (hmarks st (Nat.le_refl _) hlt).2
          have h2 := hbun st hle hc2
          rw [h2] at h1
          exact absurd h1 (by simp)
    | succ i' =>
      cases j with
      | zero => omega
      | succ j' => exact ih _ i' j' a b (by omega) ha hb st en st2 en2 hsa hsb

/- full well-formedness of located spans in a pass: the matched window lives
in the lower-cased submission and has the lower-cased text's length, while
the recorded end offset uses the original text's length -/
theorem locatePass_span_props (w : Str) :
    ∀ (es : List JSON) (u : Nat → Bool) (a : ErrAnn), a ∈ locatePass w u es →
      ∀ st en, a.span = some (st, en) →
        ∃ t : Str, getField a.raw (("text").toList) = some (JSON.jstr t) ∧
          en = st + t.length ∧ st + (jsToLower t).length ≤ (jsToLower w).length ∧
          sliceStr (jsToLower w) st (st + (jsToLower t).length) = jsToLower t := by
  intro es
  induction es with
  | nil => intro u a ha; simp [locatePass] at ha
  | cons e es ih =>
    intro u a ha st en hspan
    rw [locatePass_cons] at ha
    rcases List.mem_cons.1 ha with rfl | hmem
    · obtain ⟨t, hne, hg, hf, hen, _⟩ := locateStep_span_cases hspan
      obtain ⟨hm, hfree, hbound⟩ := findMatch_some hf
      have hraw := locateStep_raw w u e
      exact ⟨t, by rw [hraw]; exact hg, hen, hbound, matchAt_spec hm⟩
    · exact ih _ a hmem st en hspan

/-- C4: no two located error records in the final result have overlapping
half-open spans: each located span claims the leftmost occurrence whose
characters are still unmarked and marks it used, so later records must claim
disjoint ranges (first-found wins). -/
theorem located_spans_disjoint (output writing : Str) (i j : Nat) (a b : ErrAnn)
    (hij : i ≠ j)
    (ha : (parseAnalysisOutput output writing).errors.get? i = some a)
    (hb : (parseAnalysisOutput output writing).errors.get? j = some b)
    (st en st2 en2 : Nat)
    (hsa : a.span = some (st, en)) (hsb : b.span = some (st2, en2)) :
    en ≤ st2 ∨ en2 ≤ st := by
  by_cases hseg : errorsSegment output = []
  · have herr : (parseAnalysisOutput output writing).errors = [] := by
      simp [parseAnalysisOutput, hseg]
    rw [herr] at ha
    simp at ha
  · have herr : (parseAnalysisOutput output writing).errors
        = locateAll writing ((decodeErrors (errorsSegment output)).map registerFix) := by
      simp [parseAnalysisOutput, hseg]
    rw [herr] at ha hb
    unfold locateAll at ha hb
    by_cases hthrow :
        ((decodeErrors (errorsSegment output)).map registerFix).any hasThrowingText
    · rw [if_pos hthrow] at ha
      have hmem := List.get?_mem ha
      obtain ⟨e, _, rfl⟩ := List.mem_map.1 hmem
      simp at hsa
    · rw [if_neg hthrow] at ha hb
      rcases Nat.lt_or_ge i j with hlt | hge
      · exact locatePass_disjoint writing _ _ i j a b hlt ha hb st en st2 en2 hsa hsb
      · have hlt : j < i := by omega
        exact (locatePass_disjoint writing _ _ j i b a hlt hb ha st2 en2 st en hsb hsa).symm

/-- C10 (amended): every located span has end = start + quoted-text length;
and provided lower-casing changes neither the submission's length (new
proviso, forced by the counterexample: U+0130 expands) nor the quoted
text's length (the claim's own proviso), the span also lies inside the
submission and the submission characters under it equal the quoted text up
to lower-casing.  Without the submission proviso, located offsets index the
lower-cased submission, which can be longer than the original. -/
theorem located_span_well_formed (output writing : Str) (k : Nat) (a : ErrAnn)
    (hw : (jsToLower writing).length = writing.length)
    (ha : (parseAnalysisOutput output writing).errors.get? k = some a)
    (st en : Nat) (hs : a.span = some (st, en)) :
    ∃ t : Str, getField a.raw (("text").toList) = some (JSON.jstr t) ∧
      en = st + t.length ∧
      ((jsToLower t).length = t.length →
        en ≤ writing.length ∧
        jsToLower (sliceStr writing st en) = jsToLower t) := by
  have hprops : ∃ t : Str, getField a.raw (("text").toList) = some (JSON.jstr t) ∧
      en = st + t.length ∧ st + (jsToLower t).length ≤ (jsToLower writing).length ∧
      sliceStr (jsToLower writing) st (st + (jsToLower t).length) = jsToLower t := by
    by_cases hseg : errorsSegment output = []
    · have herr : (parseAnalysisOutput output writing).errors = [] := by
        simp [parseAnalysisOutput, hseg]
      rw [herr] at ha
      simp at ha
    · have herr : (parseAnalysisOutput output writing).errors
          = locateAll writing ((decodeErrors (errorsSegment output)).map registerFix) := by
        simp [parseAnalysisOutput, hseg]
      rw [herr] at ha
      unfold locateAll at ha
      by_cases hthrow :
          ((decodeErrors (errorsSegment output)).map registerFix).any hasThrowingText
      · rw [if_pos hthrow] at ha
        have hmem := List.get?_mem ha
        obtain ⟨e, _, rfl⟩ := List.mem_map.1 hmem
        simp at hs
      · rw [if_neg hthrow] at ha
        exact locatePass_span_props writing _ _ a (List.get?_mem ha) st en hs
  obtain ⟨t, hg, hen, hbound, hslice⟩ := hprops
  refine ⟨t, hg, hen, ?_⟩
  intro htl
  have hle : en ≤ writing.length := by omega
  refine ⟨hle, ?_⟩
  have hnoexp := no_exp_of_jsToLower_length_eq writing hw
  have hweq : jsToLower writing = toLowerStr writing := jsToLower_eq_toLowerStr hnoexp
  have hslnoexp : ∀ c ∈ sliceStr writing st en, c ≠ '\u0130' := by
    intro c hc
    exact hnoexp c (List.drop_subset _ _ (List.take_subset _ _ hc))
  have hsleq : jsToLower (sliceStr writing st en) = toLowerStr (sliceStr writing st en) :=
    jsToLower_eq_toLowerStr hslnoexp
  rw [hsleq, ← sliceStr_toLowerStr, ← hweq]
  rw [hen, ← htl]
  exact hslice

def seenWriting : Str := ("I seen him yesterday. I seen him again today.").toList

def seenOut : Str :=
  ("ERRORS: [\x7b\"text\": \"seen him\", \"correction\": \"saw him\", \"type\": \"grammar\", \"explanation\": \"tense\"\x7d, \x7b\"text\": \"seen him\", \"correction\": \"saw him\", \"type\": \"grammar\", \"explanation\": \"tense\"\x7d]").toList

def seenRec : JSON :=
  JSON.jobj [(("text").toList, JSON.jstr (("seen him").toList)),
             (("correction").toList, JSON.jstr (("saw him").toList)),
             (("type").toList, JSON.jstr (("grammar").toList)),
             (("explanation").toList, JSON.jstr (("tense").toList))]

set_option maxRecDepth 8000 in
/-- witness for the C4 theorem: the example of the specification, where the
same phrase is flagged twice and occurs twice, receives the two disjoint
spans 2-10 and 24-32. -/
theorem located_spans_disjoint_witness :
    spanAt (parseAnalysisOutput seenOut seenWriting) 0 = some (2, 10) ∧
    spanAt (parseAnalysisOutput seenOut seenWriting) 1 = some (24, 32) ∧
    (10 ≤ 24 ∨ 32 ≤ 2) :=
  ⟨rfl, rfl,
   located_spans_disjoint seenOut seenWriting 0 1
     ⟨seenRec, some (2, 10)⟩ ⟨seenRec, some (24, 32)⟩ (by omega) rfl rfl
     2 10 24 32 rfl rfl⟩

def gonnaOut : Str := ("ERRORS: [\x7b\"text\": \"gonna\", \"type\": \"register\"\x7d]").toList

def gonnaWriting : Str := ("We gonna win.").toList

def gonnaRec : JSON :=
  JSON.jobj [(("text").toList, JSON.jstr (("gonna").toList)),
             (("type").toList, JSON.jstr (("style").toList))]

set_option maxRecDepth 8000 in
/-- witness for the C10 theorem: on an all-ASCII submission both provisos
hold and the flagged word gonna is located at the well-formed span 3-8. -/
theorem located_span_well_formed_witness :
    ∃ t : Str,
      getField (ErrAnn.mk gonnaRec (some (3, 8))).raw (("text").toList)
        = some (JSON.jstr t) ∧
      8 = 3 + t.length ∧
      ((jsToLower t).length = t.length →
        8 ≤ gonnaWriting.length ∧
        jsToLower (sliceStr gonnaWriting 3 8) = jsToLower t) :=
  located_span_well_formed gonnaOut gonnaWriting 0 ⟨gonnaRec, some (3, 8)⟩
    (by decide) rfl 3 8 rfl

def dotWriting : Str := ("\u0130x gonna").toList

def dotOut : Str := ("ERRORS: [\x7b\"text\": \"gonna\"\x7d]").toList

set_option maxRecDepth 8000 in
/-- C10 counterexample: lower-casing the submission's capital dotted I
(U+0130) expands it to two code units, so the located span of gonna indexes
the lower-cased submission: the span is (4, 9) although the submission has
length 8, and the submission characters under the span do not spell the
quoted text - even though lower-casing the quoted text itself preserves its
length, which is all the claim's proviso requires. -/
theorem located_span_exceeds_submission :
    (jsToLower (("gonna").toList)).length = (("gonna").toList).length ∧
    ((parseAnalysisOutput dotOut dotWriting).errors.get? 0).map
        (fun a => getField a.raw (("text").toList))
      = some (some (JSON.jstr (("gonna").toList))) ∧
    spanAt (parseAnalysisOutput dotOut dotWriting) 0 = some (4, 9) ∧
    ¬(9 ≤ dotWriting.length) ∧
    jsToLower (sliceStr dotWriting 4 9) ≠ jsToLower (("gonna").toList) := by
  refine ⟨by decide, rfl, rfl, by decide, by decide⟩

theorem lookupField_objInsert (fs : List (Str × JSON)) (k : Str) (v : JSON) :
    lookupField (objInsert fs k v) k = some v := by
  induction fs with
  | nil => simp [objInsert, lookupField]
  | cons p fs ih =>
    obtain ⟨k', v'⟩ := p
    by_cases h : k' = k
    · subst h
      simp [objInsert, lookupField]
    · simp [objInsert, lookupField, h, ih]

/- the type field after the register rewrite -/
theorem typeField_registerFix (e : JSON) :
    getField (registerFix e) (("type").toList)
      = if regCond e then some (JSON.jstr (("style").toList))
        else getField e (("type").toList) := by
  by_cases h : regCond e
  · rw [if_pos h]
    unfold registerFix
    rw [if_pos h]
    have h2 := h
    simp only [regCond, Bool.and_eq_true] at h2
    have htype := h2.2
    unfold typeIsRegister at htype
    cases e with
    | jobj fs =>
      simp only [setField, getField]
      exact lookupField_objInsert _ _ _
    | jnull => simp [getField] at htype
    | jbool b => simp [getField] at htype
    | jnum q => simp [getField] at htype
    | jstr s => simp [getField] at htype
    | jarr xs => simp [getField] at htype
  · rw [if_neg h]
    unfold registerFix
    rw [if_neg h]

/-- C5: in the core, a decoded record whose category strict-equals register
is emitted with category style and every other category value passes through
unchanged; a category outside the four recognized values is replaced by
style only at render time (TextHighlighter), modelled by renderTypeStr. -/
theorem register_rewritten_to_style (output writing : Str) :
    ((parseAnalysisOutput output writing).errors.map
        (fun a => getField a.raw (("type").toList))
      = (decodeErrors (errorsSegment output)).map
        (fun e => if regCond e then some (JSON.jstr (("style").toList))
                  else getField e (("type").toList))) ∧
    (∀ t : Str,
      t ∉ [("grammar").toList, ("spelling").toList, ("vocabulary").toList, ("style").toList] →
      renderTypeStr t = ("style").toList) := by
  constructor
  · by_cases hseg : errorsSegment output = []
    · have herr : (parseAnalysisOutput output writing).errors = [] := by
        simp [parseAnalysisOutput, hseg]
      rw [herr, hseg]
      rfl
    · have herr : (parseAnalysisOutput output writing).errors
          = locateAll writing ((decodeErrors (errorsSegment output)).map registerFix) := by
        simp [parseAnalysisOutput, hseg]
      rw [herr]
      have hraw := locateAll_map_raw writing ((decodeErrors (errorsSegment output)).map registerFix)
      calc (locateAll writing ((decodeErrors (errorsSegment output)).map registerFix)).map
              (fun a => getField a.raw (("type").toList))
          = ((locateAll writing ((decodeErrors (errorsSegment output)).map registerFix)).map
              ErrAnn.raw).map (fun e => getField e (("type").toList)) := by
            rw [List.map_map]; rfl
        _ = ((decodeErrors (errorsSegment output)).map registerFix).map
              (fun e => getField e (("type").toList)) := by rw [hraw]
        _ = (decodeErrors (errorsSegment output)).map
              (fun e => if regCond e then some (JSON.jstr (("style").toList))
                        else getField e (("type").toList)) := by
            rw [List.map_map]
            exact List.map_congr_left (fun e _ => typeField_registerFix e)
  · intro t ht
    simp only [List.mem_cons, List.not_mem_nil, or_false, not_or] at ht
    obtain ⟨h1, h2, h3, h4⟩ := ht
    unfold renderTypeStr
    rw [if_neg (by tauto)]

/-- witness for the C5 theorem: an unrecognized category falls back to style
at render time. -/
theorem register_rewritten_to_style_witness :
    renderTypeStr (("banana").toList) = ("style").toList :=
  (register_rewritten_to_style seenOut seenWriting).2 (("banana").toList) (by decide)

/-- C6: each bracketed fragment of the errors segment is decoded
independently; with two fragments of which the first fails to decode and the
second decodes to an array, the result's error records are exactly that
array's records (after the register rewrite), in order - the invalid
fragment is dropped without aborting the rest. -/
theorem invalid_fragment_dropped (output writing : Str) (f1 f2 : Str) (xs : List JSON)
    (h1 : extractFragments (errorsSegment output) = [f1, f2])
    (h2 : jsonParse f1 = none)
    (h3 : jsonParse f2 = some (JSON.jarr xs)) :
    (parseAnalysisOutput output writing).errors.map ErrAnn.raw = xs.map registerFix := by
  have hseg : ¬ errorsSegment output = [] := by
    intro hnil
    rw [hnil] at h1
    simp [extractFragments, extractFragsAux] at h1
  have herr : (parseAnalysisOutput output writing).errors
      = locateAll writing ((decodeErrors (errorsSegment output)).map registerFix) := by
    simp [parseAnalysisOutput, hseg]
  rw [herr, locateAll_map_raw]
  unfold decodeErrors
  rw [h1]
  simp [List.filterMap_cons, h2, h3, jsFlatOne]

def fragOut : Str :=
  ("ERRORS: [oops] [\x7b\"text\": \"teh\", \"type\": \"spelling\"\x7d]").toList

def tehRec : JSON :=
  JSON.jobj [(("text").toList, JSON.jstr (("teh").toList)),
             (("type").toList, JSON.jstr (("spelling").toList))]

set_option maxRecDepth 8000 in
/-- witness for the C6 theorem: one invalid and one valid fragment merge to
exactly the valid fragment's single record. -/
theorem invalid_fragment_dropped_witness :
    (parseAnalysisOutput fragOut (("the teh cat").toList)).errors.map ErrAnn.raw
      = [tehRec].map registerFix :=
  invalid_fragment_dropped fragOut (("the teh cat").toList)
    (("[oops]").toList)
    (("[\x7b\"text\": \"teh\", \"type\": \"spelling\"\x7d]").toList)
    [tehRec] rfl rfl rfl

theorem matchAt_false_beyond {nw t : Str} (hne : t ≠ []) {i : Nat}
    (hgt : nw.length < i) : matchAt nw (jsToLower t) i = false := by
  have hdrop : nw.drop i = [] := List.drop_eq_nil_of_le (by omega)
  have hne' : jsToLower t ≠ [] := jsToLower_ne_nil hne
  simp [matchAt, sliceStr, hdrop]
  intro hcon
  exact hne' hcon

theorem get?_map_eq {α β : Type} (f : α → β) :
    ∀ (l : List α) (n : Nat), (l.map f).get? n = (l.get? n).map f := by
  intro l
  induction l with
  | nil => intro n; cases n <;> rfl
  | cons x l ih => intro n; cases n with
    | zero => rfl
    | succ n => exact ih n

/- a record whose step never locates (for any mask) keeps its position and
stays unlocated through the whole pass -/
theorem locatePass_get_of_fixed (w : Str) :
    ∀ (es : List JSON) (k : Nat) (e : JSON), es.get? k = some e →
      (∀ u : Nat → Bool, locateStep w u e = (⟨e, none⟩, u)) →
      ∀ u : Nat → Bool, (locatePass w u es).get? k = some ⟨e, none⟩ := by
  intro es
  induction es with
  | nil => intro k e hk; simp at hk
  | cons x es ih =>
    intro k e hk hstep u
    cases k with
    | zero =>
      have hx : x = e := by
        have h0 : some x = some e := hk
        cases h0; rfl
      subst hx
      rw [locatePass_cons, hstep u]
      rfl
    | succ k' =>
      rw [locatePass_cons]
      exact ih k' e hk hstep _

/-- C7: a decoded record whose quoted text has no unused case-insensitive
occurrence in the submission is passed through unchanged and without a span
by the locating step (first conjunct, with the used-mask explicit); in
particular a record whose text does not occur in the submission at all is
still present, unlocated, at its position in the result's error list (second
conjunct). -/
theorem unlocatable_error_retained :
    (∀ (writing : Str) (used : Nat → Bool) (e : JSON) (t : Str),
       getField e (("text").toList) = some (JSON.jstr t) →
       (∀ i, ¬(matchAt (jsToLower writing) (jsToLower t) i = true ∧
               rangeFree used i (jsToLower t).length = true)) →
       locateStep writing used e = (⟨e, none⟩, used)) ∧
    (∀ (output writing : Str) (k : Nat) (e : JSON) (t : Str),
       ((decodeErrors (errorsSegment output)).map registerFix).get? k = some e →
       getField e (("text").toList) = some (JSON.jstr t) → t ≠ [] →
       (∀ i, i ≤ (jsToLower writing).length →
         matchAt (jsToLower writing) (jsToLower t) i = false) →
       ((parseAnalysisOutput output writing).errors.get? k).map ErrAnn.raw = some e ∧
       spanAt (parseAnalysisOutput output writing) k = none) := by
  have part1 : ∀ (writing : Str) (used : Nat → Bool) (e : JSON) (t : Str),
      getField e (("text").toList) = some (JSON.jstr t) →
      (∀ i, ¬(matchAt (jsToLower writing) (jsToLower t) i = true ∧
              rangeFree used i (jsToLower t).length = true)) →
      locateStep writing used e = (⟨e, none⟩, used) := by
    intro writing used e t hg hno
    have hnone : findMatch (jsToLower writing) (jsToLower t) used = none := by
      apply findFrom_none_of_false
      intro j
      by_contra hj
      have hj' : (matchAt (jsToLower writing) (jsToLower t) j &&
          rangeFree used j (jsToLower t).length) = true := by
        cases hval : (matchAt (jsToLower writing) (jsToLower t) j &&
            rangeFree used j (jsToLower t).length)
        · exact absurd hval hj
        · rfl
      rw [Bool.and_eq_true] at hj'
      exact hno j hj'
    unfold locateStep
    rw [hg]
    cases t with
    | nil => rfl
    | cons c t' =>
      simp only [hnone]
  refine ⟨part1, ?_⟩
  intro output writing k e t hk hg hne hno
  have hseg : ¬ errorsSegment output = [] := by
    intro hnil
    rw [hnil] at hk
    simp [decodeErrors, extractFragments, extractFragsAux] at hk
  have herr : (parseAnalysisOutput output writing).errors
      = locateAll writing ((decodeErrors (errorsSegment output)).map registerFix) := by
    simp [parseAnalysisOutput, hseg]
  have hall : ∀ i, matchAt (jsToLower writing) (jsToLower t) i = false := by
    intro i
    by_cases hi : i ≤ (jsToLower writing).length
    · exact hno i hi
    · exact matchAt_false_beyond hne (by omega)
  have hstep : ∀ u : Nat → Bool, locateStep writing u e = (⟨e, none⟩, u) := by
    intro u
    apply part1 writing u e t hg
    intro i hcon
    rw [hall i] at hcon
    exact absurd hcon.1 (by simp)
  have hget : (parseAnalysisOutput output writing).errors.get? k = some ⟨e, none⟩ := by
    rw [herr]
    unfold locateAll
    split
    · rw [get?_map_eq, hk]
      rfl
    · exact locatePass_get_of_fixed writing _ k e hk hstep _
  constructor
  · rw [hget]
    rfl
  · unfold spanAt
    rw [hget]
    rfl

def recOut : Str := ("ERRORS: [\x7b\"text\": \"recieve\"\x7d]").toList

def recWriting : Str := ("receive only.").toList

def recRec : JSON := JSON.jobj [(("text").toList, JSON.jstr (("recieve").toList))]

set_option maxRecDepth 8000 in
/-- witness for the C7 theorem: the misspelling recieve does not occur in a
submission containing only receive; its record is retained, without a span. -/
theorem unlocatable_error_retained_witness :
    (((parseAnalysisOutput recOut recWriting).errors.get? 0).map ErrAnn.raw
        = some recRec) ∧
    spanAt (parseAnalysisOutput recOut recWriting) 0 = none :=
  unlocatable_error_retained.2 recOut recWriting 0 recRec (("recieve").toList)
    rfl rfl (by decide) (by decide)

/- every criterion score produced by any pass is NaN or a rational in
[0, 9.9]: the digit patterns capture one digit (optionally dot one digit),
the gap pass a single digit, and the default fill 3 or NaN -/
def scoreOK (v : JVal) : Prop :=
  v = JVal.nan ∨ ∃ q : ℚ, v = JVal.num q ∧ 0 ≤ q ∧ q ≤ 99/10

theorem digit_toNat_bounds {c : Char} (h : c.isDigit = true) :
    48 ≤ c.toNat ∧ c.toNat ≤ 57 := by
  simp [Char.isDigit] at h
  obtain ⟨h1, h2⟩ := h
  rw [UInt32.le_def] at h1 h2
  exact ⟨h1, h2⟩

theorem dval_bounds {c : Char} (h : c.isDigit = true) : 0 ≤ dval c ∧ dval c ≤ 9 := by
  obtain ⟨h1, h2⟩ := digit_toNat_bounds h
  unfold dval
  constructor
  · exact_mod_cast Nat.zero_le _
  · exact_mod_cast (by omega : c.toNat - 48 ≤ 9)

theorem headerTail_scoreOK {s : Str} {i n : Nat} {v : JVal} {ac : Nat}
    (h : headerTail s i n = some (v, ac)) : scoreOK v := by
  unfold headerTail at h
  dsimp only at h
  split at h
  case _ =>
    split at h
    case _ d =>
      split at h
      case isTrue hdig =>
        split at h
        case _ d2 hc2 hc3 =>
          split at h
          case isTrue hcond =>
            rw [Bool.and_eq_true] at hcond
            obtain ⟨h0, h9a⟩ := dval_bounds hdig
            obtain ⟨h0b, h9b⟩ := dval_bounds hcond.1
            cases h
            exact Or.inr ⟨_, rfl, by positivity, by linarith⟩
          case isFalse =>
            split at h
            case isTrue =>
              obtain ⟨h0, h9a⟩ := dval_bounds hdig
              cases h
              exact Or.inr ⟨_, rfl, h0, by linarith⟩
            case isFalse => simp at h
        case _ =>
          split at h
          case isTrue =>
            obtain ⟨h0, h9a⟩ := dval_bounds hdig
            cases h
            exact Or.inr ⟨_, rfl, h0, by linarith⟩
          case isFalse => simp at h
      case isFalse => simp at h
    case _ => simp at h
  case _ => simp at h

theorem headerAt_scoreOK {s : Str} {i : Nat} {nm : Str} {v : JVal} {ac : Nat}
    (h : headerAt s i = some (nm, v, ac)) : scoreOK v := by
  unfold headerAt at h
  obtain ⟨N, hN, hf⟩ := List.exists_of_findSome?_eq_some h
  split at hf
  · rw [Option.map_eq_some'] at hf
    obtain ⟨⟨v', ac'⟩, hht, heq⟩ := hf
    cases heq
    exact headerTail_scoreOK hht
  · simp at hf

theorem headerScan_scoreOK (s : Str) :
    ∀ (k i0 : Nat) (x : Nat × Str × JVal × Nat), x ∈ headerScan s i0 k →
      scoreOK x.2.2.1 := by
  intro k
  induction k with
  | zero => intro i0 x hx; simp [headerScan] at hx
  | succ k ih =>
    intro i0 x hx
    unfold headerScan at hx
    split at hx
    case _ nm sc ac hh =>
      rcases List.mem_cons.1 hx with rfl | hmem
      · exact headerAt_scoreOK hh
      · exact ih _ x hmem
    case _ => exact ih _ x hx

theorem hitsToCriteria_scoreOK (s : Str) :
    ∀ (hits : List (Nat × Str × JVal × Nat)) (c : Criterion),
      c ∈ hitsToCriteria s hits → (∀ x ∈ hits, scoreOK x.2.2.1) → scoreOK c.score := by
  intro hits
  induction hits with
  | nil => intro c hc; simp [hitsToCriteria] at hc
  | cons x rest ih =>
    intro c hc hall
    obtain ⟨i, nm, sc, ac⟩ := x
    unfold hitsToCriteria at hc
    rcases List.mem_cons.1 hc with rfl | hmem
    · exact hall _ (List.mem_cons_self _ _)
    · exact ih c hmem (fun y hy => hall y (List.mem_cons_of_mem _ hy))

theorem primaryCriteria_scoreOK {s : Str} {c : Criterion}
    (hc : c ∈ primaryCriteria s) : scoreOK c.score :=
  hitsToCriteria_scoreOK s _ c hc (fun x hx => headerScan_scoreOK s _ _ x hx)

theorem gapColonSearch_score (line nm : Str) (sc : JVal) :
    ∀ (k c : Nat) (r : Str × JVal × Str), gapColonSearch line nm sc c k = some r →
      r.2.1 = sc := by
  intro k
  induction k with
  | zero => intro c r h; simp [gapColonSearch] at h
  | succ k ih =>
    intro c r h
    unfold gapColonSearch at h
    split at h
    · simp at h
    case _ ch hch =>
      split at h
      · split at h
        · cases h; rfl
        · exact ih _ r h
      · split at h
        · exact ih _ r h
        · simp at h

theorem gapDigitSearch_scoreOK (line nm : Str) :
    ∀ (k d : Nat) (r : Str × JVal × Str), gapDigitSearch line nm d k = some r →
      scoreOK r.2.1 := by
  intro k
  induction k with
  | zero => intro d r h; simp [gapDigitSearch] at h
  | succ k ih =>
    intro d r h
    unfold gapDigitSearch at h
    split at h
    · simp at h
    case _ ch hch =>
      split at h
      case isTrue hcond =>
        split at h
        case _ r' hr' =>
          cases h
          have hsc := gapColonSearch_score line nm (JVal.num (dval ch)) _ _ _ hr'
          rw [Bool.and_eq_true, Bool.and_eq_true] at hcond
          obtain ⟨h0, h9⟩ := dval_bounds hcond.1.1
          rw [hsc]
          exact Or.inr ⟨_, rfl, h0, by linarith⟩
        case _ =>
          split at h
          · exact ih _ r h
          · simp at h
      case isFalse =>
        split at h
        · exact ih _ r h
        · simp at h

theorem gapStartSearch_scoreOK (line : Str) :
    ∀ (k s0 : Nat) (r : Str × JVal × Str), gapStartSearch line s0 k = some r →
      scoreOK r.2.1 := by
  intro k
  induction k with
  | zero => intro s0 r h; simp [gapStartSearch] at h
  | succ k ih =>
    intro s0 r h
    unfold gapStartSearch at h
    split at h
    case _ nm hnm =>
      split at h
      case _ r' hr' =>
        cases h
        exact gapDigitSearch_scoreOK line nm _ _ _ hr'
      case _ => exact ih _ r h
    case _ => exact ih _ r h

theorem gapLine_scoreOK {line : Str} {r : Str × JVal × Str}
    (h : gapLine line = some r) : scoreOK r.2.1 :=
  gapStartSearch_scoreOK line _ _ r h

theorem gapPass_scoreOK :
    ∀ (lines : List Str) (cs : List Criterion) (found : List Str) (c : Criterion),
      c ∈ gapPass lines cs found → (∀ c' ∈ cs, scoreOK c'.score) → scoreOK c.score := by
  intro lines
  induction lines with
  | nil =>
    intro cs found c hc hcs
    exact hcs c hc
  | cons line rest ih =>
    intro cs found c hc hcs
    unfold gapPass at hc
    split at hc
    case _ nm sc fb hline =>
      split at hc
      · exact ih _ _ c hc hcs
      · refine ih _ _ c hc ?_
        intro c' hc'
        rcases List.mem_append.1 hc' with hl | hr
        · exact hcs c' hl
        · rcases List.mem_singleton.1 hr with rfl
          exact gapLine_scoreOK hline
    case _ => exact ih _ _ c hc hcs

theorem defaultScore_scoreOK (s nm : Str) : scoreOK (defaultScore s nm) := by
  unfold defaultScore
  split
  · exact Or.inl rfl
  · exact Or.inr ⟨3, rfl, by norm_num, by norm_num⟩

theorem defaultFill_scoreOK {s : Str} {cs : List Criterion} {c : Criterion}
    (hc : c ∈ defaultFill s cs) (hcs : ∀ c' ∈ cs, scoreOK c'.score) : scoreOK c.score := by
  rcases List.mem_append.1 hc with hl | hr
  · exact hcs c hl
  · obtain ⟨nm, _, rfl⟩ := List.mem_map.1 hr
    exact defaultScore_scoreOK s nm

theorem extractCriteria_scoreOK {s : Str} {c : Criterion}
    (hc : c ∈ extractCriteria s) : scoreOK c.score := by
  unfold extractCriteria at hc
  apply defaultFill_scoreOK hc
  intro c' hc'
  unfold afterGapPass at hc'
  split at hc'
  · exact gapPass_scoreOK _ _ _ c' hc' (fun c'' h'' => primaryCriteria_scoreOK h'')
  · exact primaryCriteria_scoreOK hc'

/-- C9 (amended): every criterion score in the result is NaN (possible only
through the default-fill pattern, see C8) or a rational in [0, 9.9]: the
score patterns accept any single digit, optionally with one decimal digit,
so scores such as 9 or 9.9 are not clamped to [0,5]. -/
theorem criterion_score_range (output writing : Str) (c : Criterion)
    (hc : c ∈ (parseAnalysisOutput output writing).criteria) : scoreOK c.score := by
  have hperm := sortCrit_perm (extractCriteria (analysisSegment output))
  exact extractCriteria_scoreOK (hperm.subset hc)

def c9out : Str := ("Content (9/5): too high").toList

set_option maxRecDepth 8000 in
/-- C9 counterexample: with a Content header scored 9/5 the result carries a
Content criterion whose score is 9, which lies outside [0,5]. -/
theorem criterion_score_outside_range :
    ¬ (∀ c ∈ (parseAnalysisOutput c9out []).criteria,
        ∃ q : ℚ, c.score = JVal.num q ∧ 0 ≤ q ∧ q ≤ 5) := by
  intro h
  have hmem : (⟨("Content").toList, JVal.num 9, ("too high").toList⟩ : Criterion)
      ∈ (parseAnalysisOutput c9out []).criteria := by decide
  obtain ⟨q, hq, h0, h5⟩ := h _ hmem
  simp only [JVal.num.injEq] at hq
  rw [← hq] at h5
  norm_num at h5

set_option maxRecDepth 8000 in
/-- witness for the C9 theorem at the 9/5 output: the score 9 of its Content
criterion satisfies the amended range. -/
theorem criterion_score_range_witness :
    scoreOK (Criterion.mk (("Content").toList) (JVal.num 9) (("too high").toList)).score :=
  criterion_score_range c9out []
    ⟨("Content").toList, JVal.num 9, ("too high").toList⟩ (by decide)
